import Mathlib

/-!
Shallow embedding of the Minesweeper inference engine (minesweeper.py):
the `Sentence` class and the `MinesweeperAI` class, together with proofs of
the specified properties.

Modelling conventions:
* a board cell `(row, col)` is a pair of integers (`Cell := ℤ × ℤ`),
* a Python `set` of cells is a `Finset Cell`; iteration over a Python set
  is modelled as iteration over the canonically sorted list of its
  elements (`setToList`, using the lexicographic order on pairs) — Python's
  set iteration order is deterministic but unspecified, and every claim
  settled below is settled with respect to this fixed order,
* `Sentence.count` is a Python `int`, hence `ℤ`,
* the knowledge base is a `List Sentence`; Python mutates the `Sentence`
  objects stored in the list in place (and never aliases one object at two
  list positions), so in-place mutation of every object is `List.map`,
* Python's `for x in lst` over a list that is appended to during iteration
  advances an index cursor and re-reads the live list; the two nested
  knowledge loops of `add_knowledge` are therefore modelled as index-based
  loops.  Their termination is not obvious, so they take a fuel argument
  and return `none` when the fuel runs out: a `some` result is exactly the
  result of the Python loops, which ran their course within the fuel.
* `random.randint`-driven sampling in `make_random_move` is modelled by an
  explicit stream (list) of sampled cells; the in-bounds guarantee of
  `randint(0, height-1)` / `randint(0, width-1)` becomes a hypothesis on
  the stream.
-/

/-- A board cell `(row, col)`, a pair of Python integers. -/
abbrev Cell : Type := ℤ × ℤ

/-- Lexicographic order on cells, used as the canonical iteration order for
Python sets of cells. -/
def cellLe (a b : Cell) : Prop :=
  a.1 < b.1 ∨ (a.1 = b.1 ∧ a.2 ≤ b.2)

instance : DecidableRel cellLe := fun a b =>
  decidable_of_iff (a.1 < b.1 ∨ (a.1 = b.1 ∧ a.2 ≤ b.2)) Iff.rfl

instance : IsTrans Cell cellLe :=
  ⟨fun a b c hab hbc => by
    simp only [cellLe] at hab hbc ⊢
    omega⟩

instance : IsAntisymm Cell cellLe :=
  ⟨fun a b hab hba => by
    simp only [cellLe] at hab hba
    have h1 : a.1 = b.1 := by omega
    have h2 : a.2 = b.2 := by omega
    exact Prod.ext h1 h2⟩

instance : IsTotal Cell cellLe :=
  ⟨fun a b => by
    simp only [cellLe]
    omega⟩

/-- Sorted list of the elements of a multiset of cells (insertion sort, so
that the definition evaluates by kernel reduction on concrete inputs). -/
def multisetSortCells (m : Multiset Cell) : List Cell :=
  Quot.liftOn m (fun l => List.insertionSort cellLe l) (fun l1 l2 h =>
    List.eq_of_perm_of_sorted
      ((List.perm_insertionSort cellLe l1).trans
        ((Quotient.exact (Quot.sound h)).trans (List.perm_insertionSort cellLe l2).symm))
      (List.sorted_insertionSort cellLe l1) (List.sorted_insertionSort cellLe l2))

/-- Canonical list of the elements of a Python set of cells: models Python's
(deterministic but unspecified) set iteration order. -/
def setToList (s : Finset Cell) : List Cell :=
  multisetSortCells s.val

/-- The `Sentence` class: a set of board cells and a count of how many of
those cells are mines.  Python equality (`__eq__`) compares `cells` and
`count`, which is structural equality here. -/
structure Sentence where
  cells : Finset Cell
  count : ℤ
deriving DecidableEq

/-- `Sentence.known_mines`: the full cell set when `count == len(cells)`,
else the empty set.  (Python returns a fresh copy, so there is no side
effect; the embedding is a pure function.) -/
def Sentence.known_mines (s : Sentence) : Finset Cell :=
  if s.count = (s.cells.card : ℤ) then s.cells else ∅

/-- `Sentence.known_safes`: the full cell set when `count == 0`, else the
empty set.  No side effect. -/
def Sentence.known_safes (s : Sentence) : Finset Cell :=
  if s.count = 0 then s.cells else ∅

/-- `Sentence.mark_mine`: if the cell is a member, remove it and decrement
`count`; otherwise a no-op. -/
def Sentence.mark_mine (s : Sentence) (cell : Cell) : Sentence :=
  if cell ∈ s.cells then ⟨s.cells.erase cell, s.count - 1⟩ else s

/-- `Sentence.mark_safe`: if the cell is a member, remove it, `count`
unchanged; otherwise a no-op. -/
def Sentence.mark_safe (s : Sentence) (cell : Cell) : Sentence :=
  if cell ∈ s.cells then ⟨s.cells.erase cell, s.count⟩ else s

/-- The mutable state of the `MinesweeperAI` class. -/
structure MinesweeperAI where
  height : ℤ
  width : ℤ
  moves_made : Finset Cell
  mines : Finset Cell
  safes : Finset Cell
  knowledge : List Sentence
deriving DecidableEq

/-- `MinesweeperAI.__init__`: empty sets and an empty knowledge list. -/
def MinesweeperAI.init (height width : ℤ) : MinesweeperAI :=
  ⟨height, width, ∅, ∅, ∅, []⟩

/-- Every append to the knowledge list in the Python source is guarded by a
membership test (`if s not in self.knowledge: self.knowledge.append(s)`);
this helper is that guarded append, used by every append site below. -/
def appendUnique (knowledge : List Sentence) (s : Sentence) : List Sentence :=
  if s ∈ knowledge then knowledge else knowledge ++ [s]

/-- `MinesweeperAI.mark_mine`: add the cell to `mines` and propagate
`Sentence.mark_mine` to every sentence in the knowledge list. -/
def MinesweeperAI.mark_mine (st : MinesweeperAI) (cell : Cell) : MinesweeperAI :=
  { st with
    mines := insert cell st.mines
    knowledge := st.knowledge.map (fun s => s.mark_mine cell) }

/-- `MinesweeperAI.mark_safe`: add the cell to `safes` and propagate
`Sentence.mark_safe` to every sentence in the knowledge list. -/
def MinesweeperAI.mark_safe (st : MinesweeperAI) (cell : Cell) : MinesweeperAI :=
  { st with
    safes := insert cell st.safes
    knowledge := st.knowledge.map (fun s => s.mark_safe cell) }

/-- Neighbour computation of `MinesweeperAI.find_neighbours`, parameterised
by the board dimensions: all in-bounds cells of the 3x3 box around `cell`,
with `cell` itself removed at the end (the source builds the box including
`cell` and then calls `answer.remove((i, j))`). -/
def neighboursOf (height width : ℤ) (cell : Cell) : Finset Cell :=
  (((Finset.Icc (cell.1 - 1) (cell.1 + 1)) ×ˢ (Finset.Icc (cell.2 - 1) (cell.2 + 1))).filter
    (fun c => 0 ≤ c.1 ∧ c.1 < height ∧ 0 ≤ c.2 ∧ c.2 < width)).erase cell

/-- `MinesweeperAI.find_neighbours`, reading the dimensions off the state. -/
def MinesweeperAI.find_neighbours (st : MinesweeperAI) (cell : Cell) : Finset Cell :=
  neighboursOf st.height st.width cell

/-- One iteration of the loop body of `MinesweeperAI.add_safes` for the cell
`cll`: `self.mark_safe(cll)`, the (redundant) `self.safes.add(cll)`, and the
guarded append of the reduced sentence `Sentence(cells - {cll}, count)` when
the sentence has more than one cell.  The `sentence` argument is the loop's
fixed sentence: the Python callers of `add_safes` always pass an object that
is not (by identity) an element of `self.knowledge`, so the propagation in
`mark_safe` never mutates it. -/
def add_safes_step (sentence : Sentence) (st : MinesweeperAI) (cll : Cell) : MinesweeperAI :=
  let st1 := st.mark_safe cll
  let st2 := { st1 with safes := insert cll st1.safes }
  if 1 < sentence.cells.card then
    { st2 with
      knowledge := appendUnique st2.knowledge ⟨sentence.cells.erase cll, sentence.count⟩ }
  else st2

/-- `MinesweeperAI.add_safes`: iterate over the snapshot returned by
`sentence.known_safes()`. -/
def MinesweeperAI.add_safes (st : MinesweeperAI) (sentence : Sentence) : MinesweeperAI :=
  (setToList sentence.known_safes).foldl (add_safes_step sentence) st

/-- One iteration of the loop body of `MinesweeperAI.add_mines` for the cell
`cll`: `self.mark_mine(cll)`, the (redundant) `self.mines.add(cll)`, and the
guarded append of the reduced sentence `Sentence(cells - {cll}, count - 1)`
when the sentence has more than one cell. -/
def add_mines_step (sentence : Sentence) (st : MinesweeperAI) (cll : Cell) : MinesweeperAI :=
  let st1 := st.mark_mine cll
  let st2 := { st1 with mines := insert cll st1.mines }
  if 1 < sentence.cells.card then
    { st2 with
      knowledge := appendUnique st2.knowledge ⟨sentence.cells.erase cll, sentence.count - 1⟩ }
  else st2

/-- `MinesweeperAI.add_mines`: iterate over the snapshot returned by
`sentence.known_mines()`. -/
def MinesweeperAI.add_mines (st : MinesweeperAI) (sentence : Sentence) : MinesweeperAI :=
  (setToList sentence.known_mines).foldl (add_mines_step sentence) st

/-- The body of the innermost loop of `MinesweeperAI.add_knowledge` for the
pair of list positions `(i, j)`: with `snt = knowledge[i]` and
`snt2 = knowledge[j]` (live reads — in Python the loop variables are
references to the objects stored at those positions, and those objects are
only ever mutated in place, never replaced), if `snt != snt2` and
`snt.cells < snt2.cells` (strict subset), derive
`Sentence(snt2.cells - snt.cells, snt2.count - snt.count)`, run `add_safes`
and `add_mines` on it, and append it when its count is neither `0` nor
`len(cells)` and it is not already present.  The default sentence for an
out-of-range read is never used in an actual run (the loops guard the
indices). -/
def closureStep (st : MinesweeperAI) (i j : ℕ) : MinesweeperAI :=
  let snt := st.knowledge.getD i ⟨∅, 0⟩
  let snt2 := st.knowledge.getD j ⟨∅, 0⟩
  if snt ≠ snt2 ∧ snt.cells ⊂ snt2.cells then
    let new_sent : Sentence := ⟨snt2.cells \ snt.cells, snt2.count - snt.count⟩
    let stA := st.add_safes new_sent
    let stB := stA.add_mines new_sent
    if new_sent.count ≠ 0 ∧ new_sent.count ≠ (new_sent.cells.card : ℤ) then
      { stB with knowledge := appendUnique stB.knowledge new_sent }
    else stB
  else st

/-- The inner `for snt2 in self.knowledge` loop of `add_knowledge`, as an
index-based loop over the live list (appends during the loop extend it).
`none` means the fuel ran out before the loop did. -/
def closureInner : ℕ → MinesweeperAI → ℕ → ℕ → Option MinesweeperAI
  | 0, _, _, _ => none
  | fuel + 1, st, i, j =>
    if j < st.knowledge.length then
      closureInner fuel (closureStep st i j) i (j + 1)
    else some st

/-- The outer `for snt in self.knowledge` loop of `add_knowledge`, as an
index-based loop over the live list. -/
def closureOuter : ℕ → MinesweeperAI → ℕ → Option MinesweeperAI
  | 0, _, _ => none
  | fuel + 1, st, i =>
    if i < st.knowledge.length then
      match closureInner (fuel + 1) st i 0 with
      | none => none
      | some st2 => closureOuter fuel st2 (i + 1)
    else some st

/-- `MinesweeperAI.add_knowledge` (the spec's `reportClue`): record the move,
mark the cell safe, build the clue sentence over the cell's neighbours, run
`add_safes`/`add_mines` on it, append it if new, then run the pairwise
subset closure pass. -/
def MinesweeperAI.add_knowledge (fuel : ℕ) (st : MinesweeperAI) (cell : Cell) (count : ℤ) :
    Option MinesweeperAI :=
  let st1 := { st with moves_made := insert cell st.moves_made }
  let st2 := st1.mark_safe cell
  let sent : Sentence := ⟨st2.find_neighbours cell, count⟩
  let st3 := st2.add_safes sent
  let st4 := st3.add_mines sent
  let st5 := { st4 with knowledge := appendUnique st4.knowledge sent }
  closureOuter fuel st5 0

/-- Run a sequence of `add_knowledge` calls (a trace of clue reports). -/
def runTrace (fuel : ℕ) (st : MinesweeperAI) : List (Cell × ℤ) → Option MinesweeperAI
  | [] => some st
  | (c, n) :: rest =>
    match st.add_knowledge fuel c n with
    | none => none
    | some st2 => runTrace fuel st2 rest

/-- `MinesweeperAI.make_safe_move`: scan `safes` for a cell not in
`moves_made`; if found, add it to `moves_made` and return it, else return
`None`.  The returned state is the (possibly) updated `self`. -/
def MinesweeperAI.make_safe_move (st : MinesweeperAI) : Option Cell × MinesweeperAI :=
  match (setToList st.safes).find? (fun c => decide (c ∉ st.moves_made)) with
  | some cll => (some cll, { st with moves_made := insert cll st.moves_made })
  | none => (none, st)

/-- `MinesweeperAI.make_random_move`: walk the stream of sampled cells until
one is neither in `moves_made` nor in `mines` and return it, leaving the
state untouched (the returned state is `self`, unmodified).  An exhausted
stream (`none`) models the Python loop never finding such a cell (it would
loop forever). -/
def MinesweeperAI.make_random_move (st : MinesweeperAI) :
    List Cell → Option Cell × MinesweeperAI
  | [] => (none, st)
  | cll :: rest =>
    if cll ∉ st.moves_made ∧ cll ∉ st.mines then (some cll, st)
    else st.make_random_move rest

/-- Truthfulness of one statement with respect to a fixed mine layout `M`:
its count is exactly the number of its cells that lie in `M`. -/
def truthful (M : Finset Cell) (s : Sentence) : Prop :=
  s.count = ((s.cells ∩ M).card : ℤ)

/-- Execution invariant with respect to a fixed mine layout `M` and fixed
board dimensions: the dimensions are unchanged, every cell in `safes` is a
non-mine, every cell in `mines` is a mine, and every statement in the
knowledge collection is truthful. -/
def EngineInv (M : Finset Cell) (hgt wid : ℤ) (st : MinesweeperAI) : Prop :=
  st.height = hgt ∧ st.width = wid ∧
  (∀ c ∈ st.safes, c ∉ M) ∧ (∀ c ∈ st.mines, c ∈ M) ∧
  (∀ s ∈ st.knowledge, truthful M s)

/-- A clue report consistent with the mine layout `M` on an
`hgt x wid` board: the revealed cell is not a mine, and the reported count
is the true number of mines among its neighbours. -/
def consistentClue (M : Finset Cell) (hgt wid : ℤ) (p : Cell × ℤ) : Prop :=
  p.1 ∉ M ∧ p.2 = ((neighboursOf hgt wid p.1 ∩ M).card : ℤ)

/-- Scenario state for the spec's subset-inference property: the knowledge
collection holds Statement({A,B,C}, 1) and Statement({A,B}, 1) with
A = (0,0), B = (0,1), C = (0,2), on a 5x5 board, nothing else known. -/
def subsetScenarioState : MinesweeperAI :=
  ⟨5, 5, ∅, ∅, ∅, [⟨{(0, 0), (0, 1), (0, 2)}, 1⟩, ⟨{(0, 0), (0, 1)}, 1⟩]⟩

/-- One `add_knowledge` call on the scenario state, reporting the far-away
cell (4, 4) with clue 0 (truthful for the layout whose only mine is (0,0)). -/
def subsetScenarioRun : Option MinesweeperAI :=
  subsetScenarioState.add_knowledge 100 (4, 4) 0

/-- State for the idempotence counterexample: four statements, all truthful
for the layout with mines {(0,1), (0,2), (0,4)}.  During the first
`add_knowledge((5,5), 1)` call the pair (Statement({(0,4)}, 1),
Statement({(0,0), (0,4)}, 1)) at positions 3 and 2 derives that (0,0) is
safe, which shrinks the statement at position 0 to Statement({(0,1)}, 1) —
but only after the outer closure loop has already passed position 0, so the
pair (position 0, position 1) with the new strict-subset relation
{(0,1)} ⊂ {(0,1), (0,2)} is only examined by the next call's closure pass,
which then derives Statement({(0,2)}, 1) and marks (0,2) as a mine. -/
def idemCexState : MinesweeperAI :=
  ⟨10, 10, ∅, ∅, ∅,
    [⟨{(0, 0), (0, 1)}, 1⟩, ⟨{(0, 1), (0, 2)}, 2⟩, ⟨{(0, 0), (0, 4)}, 1⟩, ⟨{(0, 4)}, 1⟩]⟩

/-- First `add_knowledge((5,5), 1)` call on the counterexample state. -/
def idemCexRun1 : Option MinesweeperAI :=
  idemCexState.add_knowledge 100 (5, 5) 1

/-- Second `add_knowledge((5,5), 1)` call, with identical arguments,
immediately after the first. -/
def idemCexRun2 : Option MinesweeperAI :=
  idemCexRun1.bind (fun st => st.add_knowledge 100 (5, 5) 1)

/-- A single clue report on a fresh 4x4 engine: `add_knowledge((0,0), 0)`.
Used to exhibit duplicate statements in the knowledge collection. -/
def dupRun : Option MinesweeperAI :=
  runTrace 100 (MinesweeperAI.init 4 4) [((0, 0), 0)]

/-! ## Basic lemmas about the set-iteration order -/

/-- Membership in the canonical iteration list is membership in the set. -/
theorem mem_setToList {s : Finset Cell} {a : Cell} : a ∈ setToList s ↔ a ∈ s := by
  rcases s with ⟨m, hm⟩
  show a ∈ multisetSortCells m ↔ a ∈ m
  induction m using Quot.inductionOn with
  | h l =>
    show a ∈ List.insertionSort cellLe l ↔ _
    rw [List.mem_insertionSort]
    exact Iff.rfl

/-! ## Sentence-level properties -/

/-- C5: for every `Sentence` S, `count == len(cells)` makes `known_mines`
return exactly the cell set, `count == 0` makes `known_safes` return exactly
the cell set, and in all other cases both return the empty set.  Both
operations are pure functions of the sentence (the embedding), matching the
side-effect-free Python methods, which return fresh copies. -/
theorem Sentence.known_spec (s : Sentence) :
    (s.count = (s.cells.card : ℤ) → s.known_mines = s.cells) ∧
    (s.count = 0 → s.known_safes = s.cells) ∧
    (s.count ≠ (s.cells.card : ℤ) ∧ s.count ≠ 0 →
      s.known_mines = ∅ ∧ s.known_safes = ∅) := by
  refine ⟨fun h => ?_, fun h => ?_, fun h => ⟨?_, ?_⟩⟩
  · simp [Sentence.known_mines, h]
  · simp [Sentence.known_safes, h]
  · simp [Sentence.known_mines, h.1]
  · simp [Sentence.known_safes, h.2]

/-- Witness for C5 at concrete sentences. -/
theorem Sentence.known_spec_witness :
    Sentence.known_mines ⟨{((0, 0) : Cell)}, 1⟩ = {((0, 0) : Cell)} ∧
    Sentence.known_safes ⟨{((0, 0) : Cell)}, 0⟩ = {((0, 0) : Cell)} ∧
    (Sentence.known_mines ⟨{((0, 0) : Cell)}, 5⟩ = ∅ ∧
      Sentence.known_safes ⟨{((0, 0) : Cell)}, 5⟩ = ∅) :=
  ⟨(Sentence.known_spec _).1 (by decide), (Sentence.known_spec _).2.1 (by decide),
    (Sentence.known_spec _).2.2 ⟨by decide, by decide⟩⟩

/-- C6: `mark_mine`/`mark_safe` on a non-member cell are no-ops; on a member
cell both remove it from the cell set (and nothing else), `mark_mine`
decrements the count by exactly 1 and `mark_safe` leaves the count
unchanged. -/
theorem Sentence.mark_spec (s : Sentence) (c : Cell) :
    (c ∉ s.cells → s.mark_mine c = s ∧ s.mark_safe c = s) ∧
    (c ∈ s.cells →
      c ∉ (s.mark_mine c).cells ∧ (s.mark_mine c).cells = s.cells.erase c ∧
      (s.mark_mine c).count = s.count - 1 ∧
      c ∉ (s.mark_safe c).cells ∧ (s.mark_safe c).cells = s.cells.erase c ∧
      (s.mark_safe c).count = s.count) := by
  constructor
  · intro h
    simp [Sentence.mark_mine, Sentence.mark_safe, h]
  · intro h
    simp [Sentence.mark_mine, Sentence.mark_safe, h, Finset.not_mem_erase]

/-- Witness for C6 at a concrete sentence, member and non-member cell. -/
theorem Sentence.mark_spec_witness :
    (Sentence.mark_mine ⟨{((0, 0) : Cell)}, 1⟩ (1, 1) = ⟨{((0, 0) : Cell)}, 1⟩ ∧
      Sentence.mark_safe ⟨{((0, 0) : Cell)}, 1⟩ (1, 1) = ⟨{((0, 0) : Cell)}, 1⟩) ∧
    (((0, 0) : Cell) ∉ (Sentence.mark_mine ⟨{((0, 0) : Cell)}, 1⟩ (0, 0)).cells ∧
      (Sentence.mark_mine ⟨{((0, 0) : Cell)}, 1⟩ (0, 0)).cells =
        ({((0, 0) : Cell)} : Finset Cell).erase (0, 0) ∧
      (Sentence.mark_mine ⟨{((0, 0) : Cell)}, 1⟩ (0, 0)).count = 1 - 1 ∧
      ((0, 0) : Cell) ∉ (Sentence.mark_safe ⟨{((0, 0) : Cell)}, 1⟩ (0, 0)).cells ∧
      (Sentence.mark_safe ⟨{((0, 0) : Cell)}, 1⟩ (0, 0)).cells =
        ({((0, 0) : Cell)} : Finset Cell).erase (0, 0) ∧
      (Sentence.mark_safe ⟨{((0, 0) : Cell)}, 1⟩ (0, 0)).count = 1) :=
  ⟨(Sentence.mark_spec ⟨{((0, 0) : Cell)}, 1⟩ (1, 1)).1 (by decide),
    (Sentence.mark_spec ⟨{((0, 0) : Cell)}, 1⟩ (0, 0)).2 (by decide)⟩

/-! ## Knowledge-list append discipline -/

/-- C9: every append of a sentence to the knowledge list in the source
(`add_knowledge` lines 216-217 and 234-235, `add_safes` lines 303-304,
`add_mines` lines 320-321) goes through the guarded append modelled by
`appendUnique` (see its use in `add_safes_step`, `add_mines_step`,
`closureStep` and `MinesweeperAI.add_knowledge`): the list is only ever
extended at the end, and a sentence is appended only when no statement equal
to it is already present in the collection at that point. -/
theorem appendUnique_no_duplicate (K : List Sentence) (s : Sentence) :
    (s ∈ K → appendUnique K s = K) ∧ (s ∉ K → appendUnique K s = K ++ [s]) := by
  constructor <;> intro h <;> simp [appendUnique, h]

/-- Witness for C9 at a concrete list and sentence. -/
theorem appendUnique_no_duplicate_witness :
    appendUnique [⟨∅, 0⟩] ⟨∅, 0⟩ = [⟨∅, 0⟩] ∧
    appendUnique [⟨∅, 0⟩] ⟨∅, 1⟩ = [⟨∅, 0⟩] ++ [⟨∅, 1⟩] :=
  ⟨(appendUnique_no_duplicate [⟨∅, 0⟩] ⟨∅, 0⟩).1 (by decide),
    (appendUnique_no_duplicate [⟨∅, 0⟩] ⟨∅, 1⟩).2 (by decide)⟩

/-! ## Move selection -/

/-- C7: `make_safe_move` returns a cell of `safes` that was not in
`moves_made` at call time and records it in `moves_made`, whenever such a
cell exists (it returns `None` exactly when every safe cell has already been
played, in which case the state is untouched); in either case it does not
mutate `safes` or `mines`. -/
theorem make_safe_move_spec (st : MinesweeperAI) :
    (∀ c, (st.make_safe_move).1 = some c →
      c ∈ st.safes ∧ c ∉ st.moves_made ∧
      (st.make_safe_move).2.moves_made = insert c st.moves_made) ∧
    ((st.make_safe_move).1 = none ↔ ∀ c ∈ st.safes, c ∈ st.moves_made) ∧
    ((st.make_safe_move).1 = none → (st.make_safe_move).2 = st) ∧
    (st.make_safe_move).2.safes = st.safes ∧ (st.make_safe_move).2.mines = st.mines := by
  unfold MinesweeperAI.make_safe_move
  rcases hfind : (setToList st.safes).find? (fun c => decide (c ∉ st.moves_made)) with _ | c
  · refine ⟨fun c hc => by simp at hc, ?_, fun _ => rfl, rfl, rfl⟩
    refine iff_of_true rfl ?_
    intro c hc
    have hmem : c ∈ setToList st.safes := mem_setToList.mpr hc
    have hnone := List.find?_eq_none.mp hfind c hmem
    simpa using hnone
  · have hp := List.find?_some hfind
    have hmem : c ∈ setToList st.safes := List.mem_of_find?_eq_some hfind
    have hc_safe : c ∈ st.safes := mem_setToList.mp hmem
    have hc_not : c ∉ st.moves_made := by simpa using hp
    refine ⟨fun d hd => ?_, ?_, by simp, rfl, rfl⟩
    · have hd2 : c = d := by simpa using hd
      subst hd2
      exact ⟨hc_safe, hc_not, rfl⟩
    · exact iff_of_false (by simp) (fun hall => hc_not (hall c hc_safe))

/-- Witness for C7 at a concrete state with one fresh safe cell. -/
theorem make_safe_move_spec_witness :
    ((0, 1) : Cell) ∈ ({((0, 1) : Cell)} : Finset Cell) ∧
    ((0, 1) : Cell) ∉ (∅ : Finset Cell) ∧
    ((MinesweeperAI.mk 2 2 ∅ ∅ {((0, 1) : Cell)} []).make_safe_move).2.moves_made =
      insert ((0, 1) : Cell) ∅ :=
  (make_safe_move_spec (MinesweeperAI.mk 2 2 ∅ ∅ {((0, 1) : Cell)} [])).1 (0, 1) (by decide)

/-- C8: whenever `make_random_move` returns a cell, that cell is in bounds
(given that the sampling stream only contains in-bounds cells, which is what
`random.randint(0, height - 1)` / `random.randint(0, width - 1)` produce),
is neither in `moves_made` nor in `mines`, and the state — in particular
`moves_made` — is returned unchanged. -/
theorem make_random_move_spec (st : MinesweeperAI) (stream : List Cell) (c : Cell)
    (st2 : MinesweeperAI)
    (hb : ∀ x ∈ stream, 0 ≤ x.1 ∧ x.1 < st.height ∧ 0 ≤ x.2 ∧ x.2 < st.width)
    (h : st.make_random_move stream = (some c, st2)) :
    (0 ≤ c.1 ∧ c.1 < st.height ∧ 0 ≤ c.2 ∧ c.2 < st.width) ∧
    c ∉ st.moves_made ∧ c ∉ st.mines ∧ st2 = st := by
  induction stream with
  | nil => simp [MinesweeperAI.make_random_move] at h
  | cons x rest ih =>
    rw [MinesweeperAI.make_random_move] at h
    split_ifs at h with hx
    · simp only [Prod.mk.injEq, Option.some.injEq] at h
      obtain ⟨hc, hst⟩ := h
      subst hc
      exact ⟨hb x (List.mem_cons_self _ _), hx.1, hx.2, hst.symm⟩
    · exact ih (fun y hy => hb y (List.mem_cons_of_mem _ hy)) h

/-- Witness for C8 at a concrete state and sampling stream. -/
theorem make_random_move_spec_witness :
    (0 ≤ ((0, 1) : Cell).1 ∧ ((0, 1) : Cell).1 < 2 ∧ 0 ≤ ((0, 1) : Cell).2 ∧
      ((0, 1) : Cell).2 < 2) ∧
    ((0, 1) : Cell) ∉ ({((0, 0) : Cell)} : Finset Cell) ∧
    ((0, 1) : Cell) ∉ (∅ : Finset Cell) ∧
    (MinesweeperAI.mk 2 2 {((0, 0) : Cell)} ∅ ∅ []) =
      (MinesweeperAI.mk 2 2 {((0, 0) : Cell)} ∅ ∅ []) :=
  make_random_move_spec (MinesweeperAI.mk 2 2 {((0, 0) : Cell)} ∅ ∅ [])
    [(0, 0), (0, 1)] (0, 1) (MinesweeperAI.mk 2 2 {((0, 0) : Cell)} ∅ ∅ [])
    (by decide) (by decide)

/-! ## Concrete executions -/

/-- C2: with Statement({A,B,C}, 1) and Statement({A,B}, 1) in the knowledge
collection (A = (0,0), B = (0,1), C = (0,2)), the closure pass triggered by
one `add_knowledge` call derives Statement({C}, 0); the engine consumes it
immediately through `add_safes`, so C ends up in `safes` (the derived
statement itself is filtered out of the collection because its count is 0,
which is exactly the claim's other disjunct). -/
theorem subset_inference_scenario :
    ∃ st, subsetScenarioRun = some st ∧
      ((⟨{((0, 2) : Cell)}, 0⟩ : Sentence) ∈ st.knowledge ∨ ((0, 2) : Cell) ∈ st.safes) :=
  ⟨subsetScenarioRun.get (by decide), (Option.some_get _).symm, Or.inr (by decide)⟩

/-- C10: a reachable engine state whose knowledge collection contains two
equal statements at the same time: one clue report, `add_knowledge((0,0),0)`
on a fresh 4x4 engine, ends with a knowledge list that is not duplicate-free
(it holds Statement({}, 0) several times), because statements already stored
shrink in place under `mark_safe` propagation after having been appended. -/
theorem knowledge_duplicates_reachable :
    ∃ st, dupRun = some st ∧ ¬ st.knowledge.Nodup :=
  ⟨dupRun.get (by decide), (Option.some_get _).symm, by decide⟩

/-- C3 counterexample: calling `add_knowledge((5,5), 1)` twice in a row with
identical arguments from the state `idemCexState` does not leave `mines` as
the first call produced it: the first call ends with `mines = {}`, the
second with `mines = {(0,2)}`.  The second call's closure pass examines a
statement pair whose strict-subset relation only appeared (through in-place
shrinking) after the first call's pass had already passed it by. -/
theorem reportClue_not_idempotent_cex :
    idemCexRun1.map MinesweeperAI.mines = some ∅ ∧
    idemCexRun2.map MinesweeperAI.mines = some {((0, 2) : Cell)} ∧
    idemCexRun2.map MinesweeperAI.mines ≠ idemCexRun1.map MinesweeperAI.mines :=
  ⟨by decide, by decide, by decide⟩

/-! ## Truthfulness is preserved by every primitive operation -/

/-- Marking a genuinely safe cell keeps a statement truthful. -/
theorem truthful_mark_safe {M : Finset Cell} {s : Sentence} {cell : Cell}
    (hs : truthful M s) (hc : cell ∉ M) : truthful M (s.mark_safe cell) := by
  unfold Sentence.mark_safe
  split_ifs with hmem
  · show s.count = ((s.cells.erase cell ∩ M).card : ℤ)
    have hset : s.cells.erase cell ∩ M = s.cells ∩ M := by
      ext x
      simp only [Finset.mem_inter, Finset.mem_erase]
      constructor
      · rintro ⟨⟨_, h1⟩, h2⟩
        exact ⟨h1, h2⟩
      · rintro ⟨h1, h2⟩
        exact ⟨⟨fun he => hc (he ▸ h2), h1⟩, h2⟩
    rw [hset]
    exact hs
  · exact hs

/-- Marking a genuine mine keeps a statement truthful. -/
theorem truthful_mark_mine {M : Finset Cell} {s : Sentence} {cell : Cell}
    (hs : truthful M s) (hc : cell ∈ M) : truthful M (s.mark_mine cell) := by
  unfold Sentence.mark_mine
  split_ifs with hmem
  · show s.count - 1 = ((s.cells.erase cell ∩ M).card : ℤ)
    have hset : s.cells.erase cell ∩ M = (s.cells ∩ M).erase cell := by
      ext x
      simp only [Finset.mem_inter, Finset.mem_erase]
      tauto
    have hmem2 : cell ∈ s.cells ∩ M := Finset.mem_inter.mpr ⟨hmem, hc⟩
    have hcard : ((s.cells ∩ M).erase cell).card = (s.cells ∩ M).card - 1 :=
      Finset.card_erase_of_mem hmem2
    have hpos : 1 ≤ (s.cells ∩ M).card := Finset.card_pos.mpr ⟨cell, hmem2⟩
    unfold truthful at hs
    rw [hset, hcard]
    omega

  · exact hs

/-- A truthful statement with count 0 has no mine among its cells. -/
theorem truthful_count_zero {M : Finset Cell} {s : Sentence}
    (hs : truthful M s) (h0 : s.count = 0) : ∀ c ∈ s.cells, c ∉ M := by
  unfold truthful at hs
  have hcard : (s.cells ∩ M).card = 0 := by omega
  have hemp : s.cells ∩ M = ∅ := Finset.card_eq_zero.mp hcard
  intro c hc hcM
  have hmem : c ∈ s.cells ∩ M := Finset.mem_inter.mpr ⟨hc, hcM⟩
  rw [hemp] at hmem
  exact Finset.not_mem_empty c hmem

/-- A truthful statement whose count equals its size consists of mines. -/
theorem truthful_count_full {M : Finset Cell} {s : Sentence}
    (hs : truthful M s) (hf : s.count = (s.cells.card : ℤ)) :
    ∀ c ∈ s.cells, c ∈ M := by
  unfold truthful at hs
  have hcard : s.cells.card ≤ (s.cells ∩ M).card := by omega
  have heq : s.cells ∩ M = s.cells :=
    Finset.eq_of_subset_of_card_le Finset.inter_subset_left hcard
  intro c hc
  have : c ∈ s.cells ∩ M := heq.symm ▸ hc
  exact (Finset.mem_inter.mp this).2

/-- The subset-subtraction derivation of two truthful statements is
truthful. -/
theorem truthful_derived {M : Finset Cell} {A B : Sentence}
    (hA : truthful M A) (hB : truthful M B) (hsub : A.cells ⊆ B.cells) :
    truthful M ⟨B.cells \ A.cells, B.count - A.count⟩ := by
  show B.count - A.count = ((B.cells \ A.cells ∩ M).card : ℤ)
  have hset : B.cells \ A.cells ∩ M = (B.cells ∩ M) \ (A.cells ∩ M) := by
    ext x
    simp only [Finset.mem_inter, Finset.mem_sdiff]
    constructor
    · rintro ⟨⟨hxB, hxA⟩, hxM⟩
      exact ⟨⟨hxB, hxM⟩, fun hx => hxA hx.1⟩
    · rintro ⟨⟨hxB, hxM⟩, hnx⟩
      exact ⟨⟨hxB, fun hxA => hnx ⟨hxA, hxM⟩⟩, hxM⟩
  have hsub2 : A.cells ∩ M ⊆ B.cells ∩ M :=
    Finset.inter_subset_inter hsub (Finset.Subset.refl M)
  have hcard : ((B.cells ∩ M) \ (A.cells ∩ M)).card
      = (B.cells ∩ M).card - (A.cells ∩ M).card := Finset.card_sdiff hsub2
  have hle : (A.cells ∩ M).card ≤ (B.cells ∩ M).card := Finset.card_le_card hsub2
  unfold truthful at hA hB
  rw [hset, hcard]
  omega

/-- The default sentence used for (unreachable) out-of-range list reads is
truthful for any layout, so `getD` reads of a truthful knowledge list are
truthful. -/
theorem truthful_getD {M : Finset Cell} {K : List Sentence}
    (hK : ∀ s ∈ K, truthful M s) (i : ℕ) : truthful M (K.getD i ⟨∅, 0⟩) := by
  induction K generalizing i with
  | nil =>
    show truthful M ⟨∅, 0⟩
    simp [truthful]
  | cons x xs ih =>
    cases i with
    | zero => exact hK x (List.mem_cons_self _ _)
    | succ n => exact ih (fun s hs => hK s (List.mem_cons_of_mem _ hs)) n

/-- A guarded append of a truthful statement keeps the list truthful. -/
theorem truthful_appendUnique {M : Finset Cell} {K : List Sentence} {t : Sentence}
    (hK : ∀ s ∈ K, truthful M s) (ht : truthful M t) :
    ∀ s ∈ appendUnique K t, truthful M s := by
  intro s hs
  unfold appendUnique at hs
  split_ifs at hs
  · exact hK s hs
  · rcases List.mem_append.mp hs with h | h
    · exact hK s h
    · rw [List.mem_singleton.mp h]
      exact ht

/-! ## The engine invariant is preserved by every operation -/

/-- `MinesweeperAI.mark_safe` with a genuinely safe cell preserves the
engine invariant. -/
theorem EngineInv_mark_safe {M : Finset Cell} {hgt wid : ℤ} {st : MinesweeperAI}
    {cell : Cell} (h : EngineInv M hgt wid st) (hc : cell ∉ M) :
    EngineInv M hgt wid (st.mark_safe cell) := by
  obtain ⟨h1, h2, h3, h4, h5⟩ := h
  unfold MinesweeperAI.mark_safe
  refine ⟨h1, h2, ?_, h4, ?_⟩
  · intro c hcs
    rcases Finset.mem_insert.mp hcs with rfl | hcs2
    · exact hc
    · exact h3 c hcs2
  · intro s hs
    obtain ⟨t, ht, rfl⟩ := List.mem_map.mp hs
    exact truthful_mark_safe (h5 t ht) hc

/-- `MinesweeperAI.mark_mine` with a genuine mine preserves the engine
invariant. -/
theorem EngineInv_mark_mine {M : Finset Cell} {hgt wid : ℤ} {st : MinesweeperAI}
    {cell : Cell} (h : EngineInv M hgt wid st) (hc : cell ∈ M) :
    EngineInv M hgt wid (st.mark_mine cell) := by
  obtain ⟨h1, h2, h3, h4, h5⟩ := h
  unfold MinesweeperAI.mark_mine
  refine ⟨h1, h2, h3, ?_, ?_⟩
  · intro c hcs
    rcases Finset.mem_insert.mp hcs with rfl | hcs2
    · exact hc
    · exact h4 c hcs2
  · intro s hs
    obtain ⟨t, ht, rfl⟩ := List.mem_map.mp hs
    exact truthful_mark_mine (h5 t ht) hc

/-- One step of the `add_safes` loop preserves the engine invariant, given
that the loop's sentence is truthful with count 0 and the current cell is
one of its cells. -/
theorem EngineInv_add_safes_step {M : Finset Cell} {hgt wid : ℤ} {st : MinesweeperAI}
    {sentence : Sentence} {x : Cell}
    (h : EngineInv M hgt wid st) (hx : x ∈ sentence.cells)
    (hcellsM : ∀ c ∈ sentence.cells, c ∉ M) (h0 : sentence.count = 0) :
    EngineInv M hgt wid (add_safes_step sentence st x) := by
  have hxM : x ∉ M := hcellsM x hx
  have hms := EngineInv_mark_safe h hxM
  obtain ⟨a, b, c, d, e⟩ := hms
  have h2 : EngineInv M hgt wid
      { st.mark_safe x with safes := insert x (st.mark_safe x).safes } := by
    refine ⟨a, b, ?_, d, e⟩
    intro y hy
    rcases Finset.mem_insert.mp hy with rfl | hy2
    · exact hxM
    · exact c y hy2
  simp only [add_safes_step]
  split_ifs with hcard
  · obtain ⟨a2, b2, c2, d2, e2⟩ := h2
    refine ⟨a2, b2, c2, d2, ?_⟩
    apply truthful_appendUnique e2
    show sentence.count = ((sentence.cells.erase x ∩ M).card : ℤ)
    have hemp : sentence.cells.erase x ∩ M = ∅ := by
      rw [Finset.eq_empty_iff_forall_not_mem]
      intro y hy
      obtain ⟨hy1, hy2⟩ := Finset.mem_inter.mp hy
      exact hcellsM y (Finset.mem_of_mem_erase hy1) hy2
    rw [hemp]
    simpa using h0
  · exact h2

/-- `MinesweeperAI.add_safes` with a truthful sentence preserves the engine
invariant. -/
theorem EngineInv_add_safes {M : Finset Cell} {hgt wid : ℤ} {st : MinesweeperAI}
    {sentence : Sentence} (h : EngineInv M hgt wid st) (hs : truthful M sentence) :
    EngineInv M hgt wid (st.add_safes sentence) := by
  unfold MinesweeperAI.add_safes
  by_cases h0 : sentence.count = 0
  · have hcellsM : ∀ c ∈ sentence.cells, c ∉ M := truthful_count_zero hs h0
    have hgen : ∀ (l : List Cell), (∀ c ∈ l, c ∈ sentence.cells) →
        ∀ s0 : MinesweeperAI, EngineInv M hgt wid s0 →
        EngineInv M hgt wid (l.foldl (add_safes_step sentence) s0) := by
      intro l
      induction l with
      | nil => intro _ s0 hs0; exact hs0
      | cons x xs ih =>
        intro hl s0 hs0
        simp only [List.foldl_cons]
        exact ih (fun c hc => hl c (List.mem_cons_of_mem _ hc)) _
          (EngineInv_add_safes_step hs0 (hl x (List.mem_cons_self _ _)) hcellsM h0)
    apply hgen _ _ _ h
    intro c hc
    have hmem : c ∈ sentence.known_safes := mem_setToList.mp hc
    unfold Sentence.known_safes at hmem
    rwa [if_pos h0] at hmem
  · have hemp : sentence.known_safes = ∅ := by
      unfold Sentence.known_safes
      rw [if_neg h0]
    rw [hemp]
    exact h

/-- One step of the `add_mines` loop preserves the engine invariant, given
that the loop's sentence is truthful with full count and the current cell
is one of its cells. -/
theorem EngineInv_add_mines_step {M : Finset Cell} {hgt wid : ℤ} {st : MinesweeperAI}
    {sentence : Sentence} {x : Cell}
    (h : EngineInv M hgt wid st) (hx : x ∈ sentence.cells)
    (hcellsM : ∀ c ∈ sentence.cells, c ∈ M)
    (hf : sentence.count = (sentence.cells.card : ℤ)) :
    EngineInv M hgt wid (add_mines_step sentence st x) := by
  have hxM : x ∈ M := hcellsM x hx
  have hms := EngineInv_mark_mine h hxM
  obtain ⟨a, b, c, d, e⟩ := hms
  have h2 : EngineInv M hgt wid
      { st.mark_mine x with mines := insert x (st.mark_mine x).mines } := by
    refine ⟨a, b, c, ?_, e⟩
    intro y hy
    rcases Finset.mem_insert.mp hy with rfl | hy2
    · exact hxM
    · exact d y hy2
  simp only [add_mines_step]
  split_ifs with hcard
  · obtain ⟨a2, b2, c2, d2, e2⟩ := h2
    refine ⟨a2, b2, c2, d2, ?_⟩
    apply truthful_appendUnique e2
    show sentence.count - 1 = ((sentence.cells.erase x ∩ M).card : ℤ)
    have hsub : sentence.cells.erase x ∩ M = sentence.cells.erase x := by
      rw [Finset.inter_eq_left]
      intro y hy
      exact hcellsM y (Finset.mem_of_mem_erase hy)
    have hcarde : (sentence.cells.erase x).card = sentence.cells.card - 1 :=
      Finset.card_erase_of_mem hx
    have hpos : 1 ≤ sentence.cells.card := Finset.card_pos.mpr ⟨x, hx⟩
    rw [hsub, hcarde]
    omega
  · exact h2

/-- `MinesweeperAI.add_mines` with a truthful sentence preserves the engine
invariant. -/
theorem EngineInv_add_mines {M : Finset Cell} {hgt wid : ℤ} {st : MinesweeperAI}
    {sentence : Sentence} (h : EngineInv M hgt wid st) (hs : truthful M sentence) :
    EngineInv M hgt wid (st.add_mines sentence) := by
  unfold MinesweeperAI.add_mines
  by_cases hf : sentence.count = (sentence.cells.card : ℤ)
  · have hcellsM : ∀ c ∈ sentence.cells, c ∈ M := truthful_count_full hs hf
    have hgen : ∀ (l : List Cell), (∀ c ∈ l, c ∈ sentence.cells) →
        ∀ s0 : MinesweeperAI, EngineInv M hgt wid s0 →
        EngineInv M hgt wid (l.foldl (add_mines_step sentence) s0) := by
      intro l
      induction l with
      | nil => intro _ s0 hs0; exact hs0
      | cons x xs ih =>
        intro hl s0 hs0
        simp only [List.foldl_cons]
        exact ih (fun c hc => hl c (List.mem_cons_of_mem _ hc)) _
          (EngineInv_add_mines_step hs0 (hl x (List.mem_cons_self _ _)) hcellsM hf)
    apply hgen _ _ _ h
    intro c hc
    have hmem : c ∈ sentence.known_mines := mem_setToList.mp hc
    unfold Sentence.known_mines at hmem
    rwa [if_pos hf] at hmem
  · have hemp : sentence.known_mines = ∅ := by
      unfold Sentence.known_mines
      rw [if_neg hf]
    rw [hemp]
    exact h

/-- One pairwise derivation step of the closure pass preserves the engine
invariant (for any pair of indices, in range or not). -/
theorem EngineInv_closureStep {M : Finset Cell} {hgt wid : ℤ} {st : MinesweeperAI}
    (h : EngineInv M hgt wid st) (i j : ℕ) :
    EngineInv M hgt wid (closureStep st i j) := by
  simp only [closureStep]
  split_ifs with hcond hfilter
  · have hA : truthful M (st.knowledge.getD i ⟨∅, 0⟩) := truthful_getD h.2.2.2.2 i
    have hB : truthful M (st.knowledge.getD j ⟨∅, 0⟩) := truthful_getD h.2.2.2.2 j
    have hnew : truthful M
        ⟨(st.knowledge.getD j ⟨∅, 0⟩).cells \ (st.knowledge.getD i ⟨∅, 0⟩).cells,
          (st.knowledge.getD j ⟨∅, 0⟩).count - (st.knowledge.getD i ⟨∅, 0⟩).count⟩ :=
      truthful_derived hA hB hcond.2.subset
    have h2 := EngineInv_add_mines (EngineInv_add_safes h hnew) hnew
    obtain ⟨a, b, c, d, e⟩ := h2
    exact ⟨a, b, c, d, truthful_appendUnique e hnew⟩
  · have hA : truthful M (st.knowledge.getD i ⟨∅, 0⟩) := truthful_getD h.2.2.2.2 i
    have hB : truthful M (st.knowledge.getD j ⟨∅, 0⟩) := truthful_getD h.2.2.2.2 j
    have hnew : truthful M
        ⟨(st.knowledge.getD j ⟨∅, 0⟩).cells \ (st.knowledge.getD i ⟨∅, 0⟩).cells,
          (st.knowledge.getD j ⟨∅, 0⟩).count - (st.knowledge.getD i ⟨∅, 0⟩).count⟩ :=
      truthful_derived hA hB hcond.2.subset
    exact EngineInv_add_mines (EngineInv_add_safes h hnew) hnew
  · exact h

/-- The inner closure loop preserves the engine invariant. -/
theorem EngineInv_closureInner {M : Finset Cell} {hgt wid : ℤ} :
    ∀ (fuel : ℕ) (st : MinesweeperAI) (i j : ℕ) (stFin : MinesweeperAI),
      EngineInv M hgt wid st → closureInner fuel st i j = some stFin →
      EngineInv M hgt wid stFin := by
  intro fuel
  induction fuel with
  | zero =>
    intro st i j stFin _ h
    simp [closureInner] at h
  | succ n ih =>
    intro st i j stFin hInv h
    simp only [closureInner] at h
    split_ifs at h with hguard
    · exact ih _ i (j + 1) stFin (EngineInv_closureStep hInv i j) h
    · exact (Option.some.inj h) ▸ hInv

/-- The outer closure loop preserves the engine invariant. -/
theorem EngineInv_closureOuter {M : Finset Cell} {hgt wid : ℤ} :
    ∀ (fuel : ℕ) (st : MinesweeperAI) (i : ℕ) (stFin : MinesweeperAI),
      EngineInv M hgt wid st → closureOuter fuel st i = some stFin →
      EngineInv M hgt wid stFin := by
  intro fuel
  induction fuel with
  | zero =>
    intro st i stFin _ h
    simp [closureOuter] at h
  | succ n ih =>
    intro st i stFin hInv h
    simp only [closureOuter] at h
    split_ifs at h with hguard
    · rcases hI : closureInner (n + 1) st i 0 with _ | stMid
      · rw [hI] at h
        simp at h
      · rw [hI] at h
        exact ih stMid (i + 1) stFin (EngineInv_closureInner (n + 1) st i 0 stMid hInv hI) h
    · exact (Option.some.inj h) ▸ hInv

/-- `add_knowledge` with a clue consistent with the layout `M` preserves the
engine invariant. -/
theorem EngineInv_add_knowledge {M : Finset Cell} {hgt wid : ℤ} {st : MinesweeperAI}
    {cell : Cell} {count : ℤ} {fuel : ℕ} {stFin : MinesweeperAI}
    (h : EngineInv M hgt wid st) (hcell : cell ∉ M)
    (hcount : count = ((neighboursOf hgt wid cell ∩ M).card : ℤ))
    (hrun : MinesweeperAI.add_knowledge fuel st cell count = some stFin) :
    EngineInv M hgt wid stFin := by
  simp only [MinesweeperAI.add_knowledge] at hrun
  have h0 : EngineInv M hgt wid { st with moves_made := insert cell st.moves_made } := by
    obtain ⟨a, b, c, d, e⟩ := h
    exact ⟨a, b, c, d, e⟩
  have h1 := EngineInv_mark_safe h0 hcell
  have hsent : truthful M
      ⟨(({ st with moves_made := insert cell st.moves_made } : MinesweeperAI).mark_safe
        cell).find_neighbours cell, count⟩ := by
    show count = _
    simp only [MinesweeperAI.find_neighbours]
    rw [h1.1, h1.2.1]
    exact hcount
  have h2 := EngineInv_add_safes h1 hsent
  have h3 := EngineInv_add_mines h2 hsent
  obtain ⟨a, b, c, d, e⟩ := h3
  refine EngineInv_closureOuter fuel _ 0 stFin ?_ hrun
  exact ⟨a, b, c, d, truthful_appendUnique e hsent⟩

/-- Running a trace of clue reports consistent with the layout `M` preserves
the engine invariant. -/
theorem EngineInv_runTrace {M : Finset Cell} {hgt wid : ℤ} :
    ∀ (trace : List (Cell × ℤ)) (st : MinesweeperAI) (fuel : ℕ) (stFin : MinesweeperAI),
      EngineInv M hgt wid st → (∀ p ∈ trace, consistentClue M hgt wid p) →
      runTrace fuel st trace = some stFin → EngineInv M hgt wid stFin := by
  intro trace
  induction trace with
  | nil =>
    intro st fuel stFin hInv _ h
    simp only [runTrace] at h
    exact (Option.some.inj h) ▸ hInv
  | cons p rest ih =>
    intro st fuel stFin hInv hcons h
    obtain ⟨c, n⟩ := p
    simp only [runTrace] at h
    rcases hstep : MinesweeperAI.add_knowledge fuel st c n with _ | stMid
    · rw [hstep] at h
      simp at h
    · rw [hstep] at h
      have hc := hcons (c, n) (List.mem_cons_self _ _)
      exact ih stMid fuel stFin
        (EngineInv_add_knowledge hInv hc.1 hc.2 hstep)
        (fun q hq => hcons q (List.mem_cons_of_mem _ hq)) h

/-- The initial state satisfies the engine invariant for every layout. -/
theorem EngineInv_init (M : Finset Cell) (hgt wid : ℤ) :
    EngineInv M hgt wid (MinesweeperAI.init hgt wid) := by
  refine ⟨rfl, rfl, ?_, ?_, ?_⟩ <;> intro x hx <;> simp [MinesweeperAI.init] at hx

/-! ## The two global invariant claims -/

/-- C1: for every sequence of `add_knowledge` calls consistent with a single
fixed mine layout `M` (each reported cell is a non-mine and each reported
count is the true neighbour-mine count for that layout), the engine never
reaches a state with `safes ∩ mines ≠ ∅`.  The trace is universally
quantified, so every reachable call boundary is the end point of some
trace; the preservation lemmas above (`EngineInv_mark_safe`,
`EngineInv_add_safes_step`, `EngineInv_closureStep`, ...) show the invariant
also holds at every intermediate point inside a call.  The claim's
"no cell reported twice" hypothesis is not needed: truthfulness alone
suffices. -/
theorem reportClue_safes_inter_mines_empty (M : Finset Cell) (hgt wid : ℤ)
    (trace : List (Cell × ℤ)) (hcons : ∀ p ∈ trace, consistentClue M hgt wid p)
    (fuel : ℕ) (stFin : MinesweeperAI)
    (hrun : runTrace fuel (MinesweeperAI.init hgt wid) trace = some stFin) :
    stFin.safes ∩ stFin.mines = ∅ := by
  have hInv := EngineInv_runTrace trace _ fuel stFin (EngineInv_init M hgt wid) hcons hrun
  rw [Finset.eq_empty_iff_forall_not_mem]
  intro c hc
  obtain ⟨hcs, hcm⟩ := Finset.mem_inter.mp hc
  exact hInv.2.2.1 c hcs (hInv.2.2.2.1 c hcm)

/-- Witness for C1: the layout with a single mine at (1,1) on a 3x3 board
and the consistent one-clue trace `add_knowledge((0,0), 1)`. -/
theorem reportClue_safes_inter_mines_empty_witness :
    ((runTrace 50 (MinesweeperAI.init 3 3) [((0, 0), 1)]).get (by decide)).safes ∩
      ((runTrace 50 (MinesweeperAI.init 3 3) [((0, 0), 1)]).get (by decide)).mines = ∅ :=
  reportClue_safes_inter_mines_empty {(1, 1)} 3 3 [((0, 0), 1)]
    (fun p hp => by
      rw [List.mem_singleton.mp hp]
      exact ⟨by decide, by decide⟩)
    50 _ (Option.some_get _).symm

/-- C4: under a truthful, contradiction-free input stream every statement in
the knowledge collection satisfies `0 ≤ count ≤ |cells|`.  This is a
consequence of the truthfulness invariant `count = |cells ∩ M|`, which the
lemma suite above shows is preserved by every mutation the engine performs
(marking members mine/safe, the pairwise subset derivation, and the
reduced-statement constructions of `add_safes`/`add_mines`), so no statement
with a negative count or a count above its cell-set size is ever
constructed. -/
theorem knowledge_counts_in_range (M : Finset Cell) (hgt wid : ℤ)
    (trace : List (Cell × ℤ)) (hcons : ∀ p ∈ trace, consistentClue M hgt wid p)
    (fuel : ℕ) (stFin : MinesweeperAI)
    (hrun : runTrace fuel (MinesweeperAI.init hgt wid) trace = some stFin) :
    ∀ s ∈ stFin.knowledge, 0 ≤ s.count ∧ s.count ≤ (s.cells.card : ℤ) := by
  have hInv := EngineInv_runTrace trace _ fuel stFin (EngineInv_init M hgt wid) hcons hrun
  intro s hs
  have ht := hInv.2.2.2.2 s hs
  unfold truthful at ht
  have hle : (s.cells ∩ M).card ≤ s.cells.card :=
    Finset.card_le_card Finset.inter_subset_left
  omega

/-- Witness for C4: the clue statement stored by the trace of the C1
witness has count 1 over 3 cells. -/
theorem knowledge_counts_in_range_witness :
    0 ≤ (⟨{((0, 1) : Cell), (1, 0), (1, 1)}, 1⟩ : Sentence).count ∧
    (⟨{((0, 1) : Cell), (1, 0), (1, 1)}, 1⟩ : Sentence).count ≤
      (((⟨{((0, 1) : Cell), (1, 0), (1, 1)}, 1⟩ : Sentence).cells.card : ℕ) : ℤ) :=
  knowledge_counts_in_range {(1, 1)} 3 3 [((0, 0), 1)]
    (fun p hp => by
      rw [List.mem_singleton.mp hp]
      exact ⟨by decide, by decide⟩)
    50 ((runTrace 50 (MinesweeperAI.init 3 3) [((0, 0), 1)]).get (by decide))
    (Option.some_get _).symm ⟨{(0, 1), (1, 0), (1, 1)}, 1⟩ (by decide)

/-! ## Monotonicity: safes and mines only ever grow -/

/-- `mark_safe` only adds to `safes` and leaves `mines` alone. -/
theorem grow_mark_safe (st : MinesweeperAI) (cell : Cell) :
    st.safes ⊆ (st.mark_safe cell).safes ∧ st.mines ⊆ (st.mark_safe cell).mines :=
  ⟨Finset.subset_insert _ _, Finset.Subset.refl _⟩

/-- `mark_mine` only adds to `mines` and leaves `safes` alone. -/
theorem grow_mark_mine (st : MinesweeperAI) (cell : Cell) :
    st.safes ⊆ (st.mark_mine cell).safes ∧ st.mines ⊆ (st.mark_mine cell).mines :=
  ⟨Finset.Subset.refl _, Finset.subset_insert _ _⟩

/-- One `add_safes` loop step never removes from `safes` or `mines`. -/
theorem grow_add_safes_step (sentence : Sentence) (st : MinesweeperAI) (cll : Cell) :
    st.safes ⊆ (add_safes_step sentence st cll).safes ∧
    st.mines ⊆ (add_safes_step sentence st cll).mines := by
  simp only [add_safes_step]
  split_ifs with hcard
  · exact ⟨(Finset.subset_insert _ _).trans (Finset.subset_insert _ _), Finset.Subset.refl _⟩
  · exact ⟨(Finset.subset_insert _ _).trans (Finset.subset_insert _ _), Finset.Subset.refl _⟩

/-- `add_safes` never removes from `safes` or `mines`. -/
theorem grow_add_safes (st : MinesweeperAI) (sentence : Sentence) :
    st.safes ⊆ (st.add_safes sentence).safes ∧
    st.mines ⊆ (st.add_safes sentence).mines := by
  unfold MinesweeperAI.add_safes
  generalize setToList sentence.known_safes = l
  induction l generalizing st with
  | nil => exact ⟨Finset.Subset.refl _, Finset.Subset.refl _⟩
  | cons x xs ih =>
    simp only [List.foldl_cons]
    have h1 := grow_add_safes_step sentence st x
    have h2 := ih (add_safes_step sentence st x)
    exact ⟨h1.1.trans h2.1, h1.2.trans h2.2⟩

/-- One `add_mines` loop step never removes from `safes` or `mines`. -/
theorem grow_add_mines_step (sentence : Sentence) (st : MinesweeperAI) (cll : Cell) :
    st.safes ⊆ (add_mines_step sentence st cll).safes ∧
    st.mines ⊆ (add_mines_step sentence st cll).mines := by
  simp only [add_mines_step]
  split_ifs with hcard
  · exact ⟨Finset.Subset.refl _, (Finset.subset_insert _ _).trans (Finset.subset_insert _ _)⟩
  · exact ⟨Finset.Subset.refl _, (Finset.subset_insert _ _).trans (Finset.subset_insert _ _)⟩

/-- `add_mines` never removes from `safes` or `mines`. -/
theorem grow_add_mines (st : MinesweeperAI) (sentence : Sentence) :
    st.safes ⊆ (st.add_mines sentence).safes ∧
    st.mines ⊆ (st.add_mines sentence).mines := by
  unfold MinesweeperAI.add_mines
  generalize setToList sentence.known_mines = l
  induction l generalizing st with
  | nil => exact ⟨Finset.Subset.refl _, Finset.Subset.refl _⟩
  | cons x xs ih =>
    simp only [List.foldl_cons]
    have h1 := grow_add_mines_step sentence st x
    have h2 := ih (add_mines_step sentence st x)
    exact ⟨h1.1.trans h2.1, h1.2.trans h2.2⟩

/-- One closure derivation step never removes from `safes` or `mines`. -/
theorem grow_closureStep (st : MinesweeperAI) (i j : ℕ) :
    st.safes ⊆ (closureStep st i j).safes ∧ st.mines ⊆ (closureStep st i j).mines := by
  simp only [closureStep]
  split_ifs with hcond hfilter
  · have h1 := grow_add_safes st
      ⟨(st.knowledge.getD j ⟨∅, 0⟩).cells \ (st.knowledge.getD i ⟨∅, 0⟩).cells,
        (st.knowledge.getD j ⟨∅, 0⟩).count - (st.knowledge.getD i ⟨∅, 0⟩).count⟩
    have h2 := grow_add_mines (st.add_safes
      ⟨(st.knowledge.getD j ⟨∅, 0⟩).cells \ (st.knowledge.getD i ⟨∅, 0⟩).cells,
        (st.knowledge.getD j ⟨∅, 0⟩).count - (st.knowledge.getD i ⟨∅, 0⟩).count⟩)
      ⟨(st.knowledge.getD j ⟨∅, 0⟩).cells \ (st.knowledge.getD i ⟨∅, 0⟩).cells,
        (st.knowledge.getD j ⟨∅, 0⟩).count - (st.knowledge.getD i ⟨∅, 0⟩).count⟩
    exact ⟨h1.1.trans h2.1, h1.2.trans h2.2⟩
  · have h1 := grow_add_safes st
      ⟨(st.knowledge.getD j ⟨∅, 0⟩).cells \ (st.knowledge.getD i ⟨∅, 0⟩).cells,
        (st.knowledge.getD j ⟨∅, 0⟩).count - (st.knowledge.getD i ⟨∅, 0⟩).count⟩
    have h2 := grow_add_mines (st.add_safes
      ⟨(st.knowledge.getD j ⟨∅, 0⟩).cells \ (st.knowledge.getD i ⟨∅, 0⟩).cells,
        (st.knowledge.getD j ⟨∅, 0⟩).count - (st.knowledge.getD i ⟨∅, 0⟩).count⟩)
      ⟨(st.knowledge.getD j ⟨∅, 0⟩).cells \ (st.knowledge.getD i ⟨∅, 0⟩).cells,
        (st.knowledge.getD j ⟨∅, 0⟩).count - (st.knowledge.getD i ⟨∅, 0⟩).count⟩
    exact ⟨h1.1.trans h2.1, h1.2.trans h2.2⟩
  · exact ⟨Finset.Subset.refl _, Finset.Subset.refl _⟩

/-- The inner closure loop never removes from `safes` or `mines`. -/
theorem grow_closureInner :
    ∀ (fuel : ℕ) (st : MinesweeperAI) (i j : ℕ) (stFin : MinesweeperAI),
      closureInner fuel st i j = some stFin →
      st.safes ⊆ stFin.safes ∧ st.mines ⊆ stFin.mines := by
  intro fuel
  induction fuel with
  | zero =>
    intro st i j stFin h
    simp [closureInner] at h
  | succ n ih =>
    intro st i j stFin h
    simp only [closureInner] at h
    split_ifs at h with hguard
    · have h1 := grow_closureStep st i j
      have h2 := ih (closureStep st i j) i (j + 1) stFin h
      exact ⟨h1.1.trans h2.1, h1.2.trans h2.2⟩
    · exact (Option.some.inj h) ▸ ⟨Finset.Subset.refl _, Finset.Subset.refl _⟩

/-- The outer closure loop never removes from `safes` or `mines`. -/
theorem grow_closureOuter :
    ∀ (fuel : ℕ) (st : MinesweeperAI) (i : ℕ) (stFin : MinesweeperAI),
      closureOuter fuel st i = some stFin →
      st.safes ⊆ stFin.safes ∧ st.mines ⊆ stFin.mines := by
  intro fuel
  induction fuel with
  | zero =>
    intro st i stFin h
    simp [closureOuter] at h
  | succ n ih =>
    intro st i stFin h
    simp only [closureOuter] at h
    split_ifs at h with hguard
    · rcases hI : closureInner (n + 1) st i 0 with _ | stMid
      · rw [hI] at h
        simp at h
      · rw [hI] at h
        have h1 := grow_closureInner (n + 1) st i 0 stMid hI
        have h2 := ih stMid (i + 1) stFin h
        exact ⟨h1.1.trans h2.1, h1.2.trans h2.2⟩
    · exact (Option.some.inj h) ▸ ⟨Finset.Subset.refl _, Finset.Subset.refl _⟩

/-- C3 amended: a repeated `add_knowledge(cell, n)` call (like any
`add_knowledge` call) never removes a cell from `safes` or `mines`; it can,
however, add further cells, because the repeated closure pass may surface
subset relations that arose from in-place shrinking only after the first
call's pass had already examined the pair (see the counterexample above for
equality failing). -/
theorem reportClue_monotone (st : MinesweeperAI) (cell : Cell) (n : ℤ) (fuel : ℕ)
    (stFin : MinesweeperAI) (hrun : st.add_knowledge fuel cell n = some stFin) :
    st.safes ⊆ stFin.safes ∧ st.mines ⊆ stFin.mines := by
  simp only [MinesweeperAI.add_knowledge] at hrun
  have g1 := grow_mark_safe { st with moves_made := insert cell st.moves_made } cell
  have g2 := grow_add_safes
    (({ st with moves_made := insert cell st.moves_made } : MinesweeperAI).mark_safe cell)
    ⟨(({ st with moves_made := insert cell st.moves_made } : MinesweeperAI).mark_safe
      cell).find_neighbours cell, n⟩
  have g3 := grow_add_mines
    ((({ st with moves_made := insert cell st.moves_made } : MinesweeperAI).mark_safe
      cell).add_safes
      ⟨(({ st with moves_made := insert cell st.moves_made } : MinesweeperAI).mark_safe
        cell).find_neighbours cell, n⟩)
    ⟨(({ st with moves_made := insert cell st.moves_made } : MinesweeperAI).mark_safe
      cell).find_neighbours cell, n⟩
  have g4 := grow_closureOuter fuel _ 0 stFin hrun
  exact ⟨((g1.1.trans g2.1).trans g3.1).trans g4.1,
    ((g1.2.trans g2.2).trans g3.2).trans g4.2⟩

/-- Witness for the amended C3 at a concrete call. -/
theorem reportClue_monotone_witness :
    (MinesweeperAI.init 2 2).safes ⊆
      (((MinesweeperAI.init 2 2).add_knowledge 20 (0, 0) 0).get (by decide)).safes ∧
    (MinesweeperAI.init 2 2).mines ⊆
      (((MinesweeperAI.init 2 2).add_knowledge 20 (0, 0) 0).get (by decide)).mines :=
  reportClue_monotone (MinesweeperAI.init 2 2) (0, 0) 0 20
    (((MinesweeperAI.init 2 2).add_knowledge 20 (0, 0) 0).get (by decide))
    (Option.some_get _).symm
